import Mathlib

/-!
# Verification of the discord-chat-node conversation core

A shallow embedding, in Lean 4, of the history store, response splitter,
Gemini history formatter, message-create pipeline, proactive scheduler and
the JSON persistence layer of the `discord-chat-node` bot, together with
proofs and refutations of the specified properties.

JavaScript strings are modelled as `List Char`; JavaScript `Map`s as
association lists in insertion order; `undefined`/`null` results as
`Option`; the random draws and external services (Discord fetch/send, the
AI backends) as explicit oracle parameters.
-/

/-- JavaScript strings are modelled as lists of characters. -/
abbrev Str := List Char

namespace DiscordChat

/-- One stored conversation turn `{role, content, timestamp?}`.
`timestamp` is `none` for the live-turn path (`messageCreateHandler`) and
`some` for turns appended by the proactive scheduler. -/
structure Turn where
  role : Str
  content : Str
  timestamp : Option Str := none
  deriving DecidableEq, Repr

/-- The in-memory `conversationHistory` JavaScript `Map`, as an association
list in insertion order: `channelId -> Array of {role, content}`. -/
abbrev HistMap := List (Str × List Turn)

/-- `Map.prototype.get`: value of the first (unique) matching key. -/
def mapGet (m : HistMap) (k : Str) : Option (List Turn) :=
  match m with
  | [] => none
  | (k', v) :: rest => if k' = k then some v else mapGet rest k

/-- `Map.prototype.has`. -/
def mapHas (m : HistMap) (k : Str) : Bool :=
  (mapGet m k).isSome

/-- `Map.prototype.set`: replace the value in place if the key exists,
otherwise append the new entry at the end (JS insertion order). -/
def mapSet (m : HistMap) (k : Str) (v : List Turn) : HistMap :=
  match m with
  | [] => [(k, v)]
  | (k', v') :: rest => if k' = k then (k', v) :: rest else (k', v') :: mapSet rest k v

/-- `Map.prototype.delete` (ignoring the returned boolean). -/
def mapDelete (m : HistMap) (k : Str) : HistMap :=
  match m with
  | [] => []
  | (k', v') :: rest => if k' = k then rest else (k', v') :: mapDelete rest k

/-- `getChannelHistory` (src/utils/historyManager.js):
`conversationHistory.get(channelId) || []`. -/
def getChannelHistory (m : HistMap) (channelId : Str) : List Turn :=
  (mapGet m channelId).getD []

/-- `updateChannelHistory` (src/utils/historyManager.js). -/
def updateChannelHistory (m : HistMap) (channelId : Str) (history : List Turn) : HistMap :=
  mapSet m channelId history

/-- `addMessageToHistory` (src/utils/historyManager.js).  `maxHistorySize`
is `config.MAX_HISTORY_SIZE` (an `Int`: `-1` unlimited, `0` one-shot,
positive bounded).  With size `0` the entry is deleted; otherwise the
message is pushed and, under a positive bound, the array is pruned with
`history.slice(history.length - MAX_HISTORY_SIZE)`. -/
def addMessageToHistory (maxHistorySize : Int) (m : HistMap) (channelId : Str)
    (messageObject : Turn) : HistMap :=
  if maxHistorySize = 0 then
    if mapHas m channelId then mapDelete m channelId else m
  else
    let history := getChannelHistory m channelId ++ [messageObject]
    let history :=
      if maxHistorySize > 0 ∧ (history.length : Int) > maxHistorySize then
        history.drop (history.length - maxHistorySize.toNat)
      else history
    updateChannelHistory m channelId history

/-- The last `n` elements of a list, in order (`Array.prototype.slice(len - n)`). -/
def lastN (n : Nat) (l : List α) : List α :=
  l.drop (l.length - n)

/-- A concrete conversation turn used by the witnesses. -/
def mkTurn (role content : String) : Turn :=
  { role := role.toList, content := content.toList }

/-! ## ResponseSplitter: `splitMessage` (src/utils/messageUtils.js) -/

/-- `String.prototype.trim`. -/
def jsTrim (l : Str) : Str :=
  List.rdropWhile Char.isWhitespace (l.dropWhile Char.isWhitespace)

/-- `text.replace(/\r\n/g, "\n")`. -/
def normalizeNewlines : Str → Str
  | [] => []
  | '\r' :: '\n' :: rest => '\n' :: normalizeNewlines rest
  | c :: rest => c :: normalizeNewlines rest

/-- `text.split(/(\n)/)`: split at newlines, keeping each `"\n"` delimiter
as its own part (JS capture-group split). -/
def splitKeepNl : Str → List Str
  | [] => [[]]
  | '\n' :: rest => [] :: ['\n'] :: splitKeepNl rest
  | c :: rest =>
    match splitKeepNl rest with
    | [] => [[c]]
    | p :: ps => (c :: p) :: ps

/-- The character-boundary hard split
`for (j = 0; j < len; j += maxLength) push(substring(j, j + maxLength))`,
written with explicit fuel (one unit per emitted piece; `l.length` units
always suffice for a positive `maxLength`). -/
def hardSplitGo (maxLength : Nat) : Nat → Str → List Str
  | 0, _ => []
  | _ + 1, [] => []
  | fuel + 1, l => l.take maxLength :: hardSplitGo maxLength fuel (l.drop maxLength)

def hardSplit (maxLength : Nat) (l : Str) : List Str :=
  hardSplitGo maxLength l.length l

/-- One iteration of the main accumulation loop of `splitMessage`, over the
state `(chunks, currentChunk)`. -/
def splitStep (maxLength : Nat) (st : List Str × Str) (part : Str) : List Str × Str :=
  let chunks := st.1
  let currentChunk := st.2
  let isNewlineDelimiter := part = ['\n']
  if currentChunk.length + part.length +
      (if 0 < currentChunk.length ∧ ¬isNewlineDelimiter then 1 else 0) > maxLength then
    let chunks := if 0 < currentChunk.length then chunks ++ [jsTrim currentChunk] else chunks
    if part.length > maxLength then
      (chunks ++ hardSplit maxLength part, [])
    else
      (chunks, part)
  else
    let currentChunk :=
      if 0 < currentChunk.length ∧ ¬isNewlineDelimiter ∧ 0 < (jsTrim part).length then
        currentChunk ++ [' ']
      else currentChunk
    (chunks, currentChunk ++ part)

/-- The `"..."` placeholder returned for empty input or when all chunking
produced nothing. -/
def placeholderDots : Str := "...".toList

/-- The chunk list built by `splitMessage` before the final safeguard
pass: main loop over the newline-keeping parts, trailing-chunk push, and
the character-split fallback for non-blank text that produced no chunks. -/
def preChunks (maxLength : Nat) (text : Str) : List Str :=
  let st := (splitKeepNl (normalizeNewlines text)).foldl (splitStep maxLength) ([], [])
  let chunks := if 0 < (jsTrim st.2).length then st.1 ++ [jsTrim st.2] else st.1
  if chunks.length = 0 ∧ 0 < (jsTrim text).length then hardSplit maxLength text else chunks

/-- The final safeguard pass of `splitMessage`: force-split any chunk still
over `maxLength`, drop whitespace-only chunks. -/
def safeguard (maxLength : Nat) (chunks : List Str) : List Str :=
  chunks.foldl (fun acc chunk =>
    if chunk.length > maxLength then acc ++ hardSplit maxLength chunk
    else if 0 < (jsTrim chunk).length then acc ++ [chunk] else acc) []

/-- `splitMessage` (src/utils/messageUtils.js): newline-preferring split of
a message into chunks of at most `maxLength` characters, with a hard
character split as fallback and a `"..."` placeholder when nothing
survives. -/
def splitMessage (text : Str) (maxLength : Nat) : List Str :=
  if text.length = 0 then [placeholderDots]
  else
    let finalChunks := safeguard maxLength (preChunks maxLength text)
    if finalChunks.length = 0 then [placeholderDots] else finalChunks

/-! ## HostedModelProvider: `formatMessagesForGemini` (src/services/geminiService.js) -/

/-- A message in Gemini wire format: `{role, parts: [{text}]}` (each part
is its text). -/
structure GeminiMsg where
  role : Str
  parts : List Str
  deriving DecidableEq, Repr

/-- One iteration of the role-merging loop of `formatMessagesForGemini`,
over the state `(geminiMessages, currentRole, currentParts)`.  `currentRole`
is `null` initially; the assigned roles `"user"`/`"model"` are never the
empty string, so JS truthiness of `currentRole` is `Option.isSome`. -/
def geminiStep (st : List GeminiMsg × Option Str × List Str) (msg : Turn) :
    List GeminiMsg × Option Str × List Str :=
  let gm := st.1
  let currentRole := st.2.1
  let currentParts := st.2.2
  let role := if msg.role = "assistant".toList then "model".toList else "user".toList
  if currentRole = some role then
    (gm, currentRole, currentParts ++ [msg.content])
  else
    let gm :=
      match currentRole with
      | some r => if 0 < currentParts.length then gm ++ [⟨r, currentParts⟩] else gm
      | none => gm
    (gm, some role, [msg.content])

/-- The role-merging loop of `formatMessagesForGemini`, including the final
push of the pending `(currentRole, currentParts)` message. -/
def mergeMessages (messages : List Turn) : List GeminiMsg :=
  let st := messages.foldl geminiStep ([], none, [])
  match st.2.1 with
  | some r => if 0 < st.2.2.length then st.1 ++ [⟨r, st.2.2⟩] else st.1
  | none => st.1

/-- The final filter of `formatMessagesForGemini`:
`msg.parts.every((part) => part.text && part.text.trim() !== "")`. -/
def geminiKeep (g : GeminiMsg) : Bool :=
  g.parts.all (fun t => !(t.isEmpty) && !((jsTrim t).isEmpty))

/-- `formatMessagesForGemini` (src/services/geminiService.js): map
`assistant` to `model` and everything else to `user`, merge consecutive
same-role turns into one multi-part message, then drop every merged
message that has an empty or whitespace-only part. -/
def formatMessagesForGemini (messages : List Turn) : List GeminiMsg :=
  (mergeMessages messages).filter geminiKeep

/-! ## ProactiveScheduler (src/utils/proactiveMessaging.js)

The random draws and the external Discord/AI calls are oracle inputs; a
fire is modelled as a pure function from them to the message sent (if
any), the updated history, and the next pending timer (if one was
scheduled). -/

structure ProactiveConfig where
  enableProactiveMessaging : Bool
  proactiveTargets : List Str
  proactiveMinInterval : Nat
  proactiveMaxInterval : Nat
  proactiveFallbackMessages : List Str
  maxHistorySize : Int

/-- `n || d` for numeric config values (`0` is falsy in JS). -/
def orElseNat (n d : Nat) : Nat := if n = 0 then d else n

/-- `getRandomInterval(min, max)`:
`Math.floor(Math.random() * (max - min + 1) + min) * 60 * 1000`.
`draw % (max - min + 1)` stands for `Math.floor(random * (max - min + 1))`,
which ranges over `[0, max - min]` when `min ≤ max`. -/
def getRandomInterval (min max draw : Nat) : Nat :=
  (min + draw % (max - min + 1)) * 60 * 1000

/-- `chooseRandomTarget`: `null` when no targets are configured, otherwise
a uniformly drawn element (`targets[Math.floor(random * length)]`). -/
def chooseRandomTarget (targets : List Str) (draw : Nat) : Option Str :=
  if targets.length = 0 then none
  else targets.get? (draw % targets.length)

/-- The oracle inputs of one proactive fire: the random draws and the
outcomes of the external calls. -/
structure ProactiveEnv where
  targetDraw : Nat
  userFetchOk : Str → Bool
  channelFetchOk : Str → Bool
  skipDraw : Bool
  genResult : Option Str
  fallbackDraw : Nat
  sendOk : Bool
  intervalDraw : Nat

/-- `scheduleNextProactiveMessage`: cancel any pending timer and, unless
proactive messaging is disabled, draw a fresh interval (with the `|| 60`
and `|| 240` minute defaults) and arm the timer with it. -/
def scheduleNextProactiveMessage (cfg : ProactiveConfig) (intervalDraw : Nat) : Option Nat :=
  if ¬cfg.enableProactiveMessaging then none
  else some (getRandomInterval (orElseNat cfg.proactiveMinInterval 60)
    (orElseNat cfg.proactiveMaxInterval 240) intervalDraw)

/-- `generateProactiveMessage`: any failure inside the `try` (including an
AI failure or empty response) falls back to a random canned message;
`none` models `undefined` (failed generation with an empty fallback
list). -/
def generateProactiveMessage (cfg : ProactiveConfig) (genResult : Option Str)
    (fallbackDraw : Nat) : Option Str :=
  match genResult with
  | some r => some r
  | none =>
    cfg.proactiveFallbackMessages.get?
      (fallbackDraw % cfg.proactiveFallbackMessages.length)

structure ProactiveResult where
  /-- The freshly scheduled timer interval in ms, `none` if the fire
  ended with no pending timer. -/
  nextTimer : Option Nat
  /-- `(targetId, message)` if a message was actually sent. -/
  sentMessage : Option (Str × Str)
  history : HistMap
  deriving DecidableEq, Repr

/-- The body of one fire once a target id has been drawn: resolve the
target (`dm_`-prefixed ids through `client.users.fetch`, others through
`client.channels.fetch`; a failed fetch `return`s with no reschedule),
apply the chance skip, generate (with fallback), send, and append to
history; all non-resolution failures fall through to the trailing
reschedule. -/
def proactiveFire (cfg : ProactiveConfig) (env : ProactiveEnv) (h : HistMap)
    (timestamp : Str) (targetId : Str) : ProactiveResult :=
  if ¬(if targetId.take 3 = "dm_".toList then env.userFetchOk (targetId.drop 3)
       else env.channelFetchOk targetId) then ⟨none, none, h⟩
  else if env.skipDraw then
    ⟨scheduleNextProactiveMessage cfg env.intervalDraw, none, h⟩
  else
    match generateProactiveMessage cfg env.genResult env.fallbackDraw with
    | none =>
      ⟨scheduleNextProactiveMessage cfg env.intervalDraw, none, h⟩
    | some message =>
      if ¬env.sendOk then
        ⟨scheduleNextProactiveMessage cfg env.intervalDraw, none, h⟩
      else
        ⟨scheduleNextProactiveMessage cfg env.intervalDraw, some (targetId, message),
          addMessageToHistory cfg.maxHistorySize h targetId
            ⟨"assistant".toList, message, some timestamp⟩⟩

/-- `sendProactiveMessage`: one fire of the proactive scheduler.  The
nested `catch { return }` of the user/channel fetch exits the whole
function, skipping the trailing `scheduleNextProactiveMessage` call; the
chance-skip branch reschedules explicitly, and generation/send errors are
caught by the outer `catch` and fall through to the trailing reschedule. -/
def sendProactiveMessage (isActive : Bool) (cfg : ProactiveConfig) (env : ProactiveEnv)
    (h : HistMap) (timestamp : Str) : ProactiveResult :=
  if ¬isActive ∨ ¬cfg.enableProactiveMessaging then ⟨none, none, h⟩
  else
    match chooseRandomTarget cfg.proactiveTargets env.targetDraw with
    | none => ⟨none, none, h⟩
    | some targetId => proactiveFire cfg env h timestamp targetId

/-! ## Per-turn pipeline: `execute` (src/eventHandlers/messageCreateHandler.js)

The pipeline is modelled up to the hand-off of the processed completion to
the token-split/send stage: `sent` collects the direct replies/notices the
handler sends before that stage, and `deliverySource` is the processed
`aiResponseContent` string from which the delivered message parts are cut.
External effects (command handling, image description, the provider call,
the clock) are oracle inputs. -/

/-- `String.prototype.toLowerCase`. -/
def jsToLower (s : Str) : Str := s.map Char.toLower

/-- `s.startsWith(p)`. -/
def jsStartsWith (s p : Str) : Bool := p.isPrefixOf s

/-- `s.includes(sub)`. -/
def jsIncludes (s sub : Str) : Bool := decide (sub <:+: s)

/-- `Array.prototype.join(sep)`. -/
def joinSep (sep : Str) : List Str → Str
  | [] => []
  | [x] => x
  | x :: rest => x ++ sep ++ joinSep sep rest

/-- `aiResponse.replaceAll("\n\n", token)`: leftmost non-overlapping
replacement of the two-character sequence. -/
def replaceNlNl (token : Str) : Str → Str
  | '\n' :: '\n' :: rest => token ++ replaceNlNl token rest
  | c :: rest => c :: replaceNlNl token rest
  | [] => []

/-- `aiResponseContent.replace(/(?<!\.)\.(?!\.)/g, "")`: delete every `.`
whose neighbours in the original string are not `.` themselves.  `prev` is
the character just before the current position in the original string. -/
def removeSingleDotsAux (prev : Option Char) : Str → Str
  | [] => []
  | c :: rest =>
    if c = '.' ∧ prev ≠ some '.' ∧ rest.head? ≠ some '.' then
      removeSingleDotsAux (some c) rest
    else c :: removeSingleDotsAux (some c) rest

def removeSingleDots (s : Str) : Str := removeSingleDotsAux none s

/-- The configuration surface the handler reads.  `BOT_PREFIX`,
`IGNORE_PREFIX` and `COMMAND_PREFIX` are named `botTrigger`,
`ignoreMarker` and `commandMarker` here; the empty string models a falsy
value.  `ALLOW_SINGLE_DOT` and `REQUIRE_PREFIX_IN_DM` are absent from
config.js, so on the real config they are `undefined`: `allowSingleDot =
false` and (because of `!== false`) `requireTriggerInDM = true`. -/
structure HandlerConfig where
  allowPrivateMessages : Bool
  onlyTheseDmChats : Option (List Str)
  ignoreMarker : Str
  botTrigger : Str
  requireTriggerInDM : Bool
  commandMarker : Str
  targetChannelId : Option Str
  maxHistorySize : Int
  messageSplitToken : Str
  allowSingleDot : Bool
  multipleChatters : Bool
  includeDmContext : Bool
  aiServiceIsOllama : Bool
  ollamaSystemPrompt : Str

/-- The fields of the inbound Discord message the handler reads.
`isDM` is `message.channel.type === 1`. -/
structure InboundMessage where
  authorIsBot : Bool
  isDM : Bool
  channelIdRaw : Str
  authorId : Str
  authorName : Str
  content : Str

/-- Oracle outcomes of the handler's external calls. -/
structure HandlerEnv where
  /-- `commandHandler.handleCommand` threw (its `catch` returns). -/
  commandThrew : Bool
  /-- `commandHandler.handleCommand` returned a truthy value. -/
  commandHandled : Bool
  /-- `userCooldowns.has(message.author.id)`. -/
  cooldownActive : Bool
  /-- The `[Image Description ...]` strings collected in section 3
  (empty when image processing is unavailable or no image attached). -/
  imageDescriptions : List Str
  /-- `userInfoManager.isUserInfoComplete(message.author.id)`. -/
  userInfoComplete : Bool
  /-- `userInfoManager.getRequiredFields()`. -/
  requiredFields : List Str
  /-- `aiServiceProvider.chat(messages, options)`: `none` models `null`. -/
  chatFn : List Turn → Option Str
  /-- `format(new Date(), "HH:mm zzz", ...)`. -/
  timeStr : Str

/-- The outcome of one handler run, up to the delivery stage. -/
structure HandlerResult where
  sent : List Str
  deliverySource : Option Str
  history : HistMap
  chatInvoked : Bool
  deriving DecidableEq, Repr

/-- The conversation id: `dm_<author>` for DMs, the raw channel id
otherwise. -/
def channelIdOf (msg : InboundMessage) : Str :=
  if msg.isDM then "dm_".toList ++ msg.authorId else msg.channelIdRaw

/-- `config.TARGET_CHANNEL_ID && channelId !== config.TARGET_CHANNEL_ID`:
whether the target-channel filter rejects this (non-DM) message. -/
def targetChannelBlocks (cfg : HandlerConfig) (channelId : Str) : Bool :=
  match cfg.targetChannelId with
  | some t => channelId ≠ t
  | none => false

/-- `ONLY_THESE_DM_CHATS && !ONLY_THESE_DM_CHATS.some(c => channelId.includes(c))`
(negated): whether the DM filter lets the message through. -/
def dmChatAllowed (cfg : HandlerConfig) (channelId : Str) : Bool :=
  match cfg.onlyTheseDmChats with
  | none => true
  | some l => l.any (fun c => jsIncludes channelId c)

/-- Whether the `BOT_PREFIX` gate applies to this message. -/
def usesTrigger (cfg : HandlerConfig) (msg : InboundMessage) : Prop :=
  cfg.botTrigger ≠ [] ∧ (¬msg.isDM ∨ cfg.requireTriggerInDM)

instance (cfg : HandlerConfig) (msg : InboundMessage) : Decidable (usesTrigger cfg msg) := by
  unfold usesTrigger
  infer_instance

/-- The message content after trimming and optional trigger stripping. -/
def processedContent (cfg : HandlerConfig) (msg : InboundMessage) : Str :=
  let rawMessageContent := jsTrim msg.content
  if usesTrigger cfg msg then jsTrim (rawMessageContent.drop cfg.botTrigger.length)
  else rawMessageContent

/-- Section 4 of the handler: append the image-description block. -/
def finalContentForAI (cfg : HandlerConfig) (msg : InboundMessage) (env : HandlerEnv) : Str :=
  let p := processedContent cfg msg
  if env.imageDescriptions ≠ [] then
    if p ≠ [] then p ++ '\n' :: joinSep ['\n'] env.imageDescriptions
    else joinSep ['\n'] env.imageDescriptions
  else p

/-- The user turn as stored in history: time-stamped, optionally
name-tagged and DM-tagged. -/
def userMessageForHistory (cfg : HandlerConfig) (msg : InboundMessage) (env : HandlerEnv) : Str :=
  let m := "[Time: ".toList ++ env.timeStr ++ "] ".toList ++ finalContentForAI cfg msg env
  let m := if cfg.multipleChatters then msg.authorName ++ ": ".toList ++ m else m
  if msg.isDM ∧ cfg.includeDmContext then "[Direct Message] ".toList ++ m else m

/-- The message list passed to `aiServiceProvider.chat`: optional Ollama
system turn, the retained history window (one slot is reserved for the
current message when the bound is positive), and the current user turn. -/
def messagesForAI (cfg : HandlerConfig) (msg : InboundMessage) (env : HandlerEnv)
    (h0 : HistMap) : List Turn :=
  let currentChannelHistory := getChannelHistory h0 (channelIdOf msg)
  let historySliceForAI :=
    if cfg.maxHistorySize = -1 then currentChannelHistory
    else if cfg.maxHistorySize > 0 then
      currentChannelHistory.drop
        (currentChannelHistory.length - (cfg.maxHistorySize - 1).toNat)
    else []
  (if cfg.aiServiceIsOllama ∧ cfg.ollamaSystemPrompt ≠ [] then
      [⟨"system".toList, cfg.ollamaSystemPrompt, none⟩]
    else [])
  ++ historySliceForAI ++ [⟨"user".toList, userMessageForHistory cfg msg env, none⟩]

def hmmNotice : Str := "Hmm? Did you want to tell me something?".toList

def noResponseNotice : Str := "I... I don't have a response for that right now.".toList

/-- The DM notice sent when the profile is incomplete (section 5). -/
def dmIncompleteNotice (cfg : HandlerConfig) (fields : List Str) : Str :=
  "Before we can chat, pls use the `".toList ++ cfg.commandMarker ++
    " input` command with the following required fields: ".toList ++
    joinSep ", ".toList fields

/-- The DM notice sent when the provider returned `null`. -/
def dmNeedInfoNotice (cfg : HandlerConfig) : Str :=
  "I need some information from you before we can chat. Please use the `".toList ++
    cfg.commandMarker ++ " input` command to provide your details.".toList

/-- The post-processing of the raw completion (lines 337-345): replace
every `"\n\n"` with the split token, then, unless `ALLOW_SINGLE_DOT`,
delete isolated periods. -/
def postProcessResponse (cfg : HandlerConfig) (aiResponse : Str) : Str :=
  let c := replaceNlNl cfg.messageSplitToken aiResponse
  if ¬cfg.allowSingleDot then removeSingleDots c else c

/-- `execute` (src/eventHandlers/messageCreateHandler.js), as a pure
function of the message, the configuration, the oracle outcomes and the
history store; it runs up to the hand-off of the processed completion to
the delivery stage (`deliverySource`). -/
def execute (cfg : HandlerConfig) (msg : InboundMessage) (env : HandlerEnv)
    (h0 : HistMap) : HandlerResult :=
  if msg.authorIsBot then ⟨[], none, h0, false⟩
  else if msg.isDM ∧ ¬cfg.allowPrivateMessages then ⟨[], none, h0, false⟩
  else if env.commandThrew then ⟨[], none, h0, false⟩
  else if env.commandHandled then ⟨[], none, h0, false⟩
  else
    let channelId := channelIdOf msg
    let rawMessageContent := jsTrim msg.content
    let userMessageContentLower := jsToLower rawMessageContent
    if ¬msg.isDM ∧ targetChannelBlocks cfg channelId then ⟨[], none, h0, false⟩
    else if msg.isDM ∧ ¬dmChatAllowed cfg channelId then ⟨["no".toList], none, h0, false⟩
    else if cfg.ignoreMarker ≠ [] ∧
        jsStartsWith userMessageContentLower (jsToLower cfg.ignoreMarker) then
      ⟨[], none, h0, false⟩
    else if usesTrigger cfg msg ∧
        ¬jsStartsWith userMessageContentLower (jsToLower cfg.botTrigger) then
      ⟨[], none, h0, false⟩
    else if env.cooldownActive then ⟨[], none, h0, false⟩
    else if finalContentForAI cfg msg env = [] then
      if cfg.botTrigger ≠ [] ∧
          jsStartsWith (jsToLower rawMessageContent) (jsToLower cfg.botTrigger) then
        ⟨[hmmNotice], none, h0, false⟩
      else ⟨[], none, h0, false⟩
    else if msg.isDM ∧ ¬env.userInfoComplete then
      ⟨[dmIncompleteNotice cfg env.requiredFields], none, h0, false⟩
    else
      match env.chatFn (messagesForAI cfg msg env h0) with
      | none =>
        ⟨[if msg.isDM then dmNeedInfoNotice cfg else noResponseNotice], none, h0, true⟩
      | some aiResponse =>
        let aiResponseContent := postProcessResponse cfg aiResponse
        if jsTrim aiResponseContent = [] then
          ⟨[noResponseNotice], none,
            addMessageToHistory cfg.maxHistorySize
              (addMessageToHistory cfg.maxHistorySize h0 channelId
                ⟨"user".toList, userMessageForHistory cfg msg env, none⟩)
              channelId ⟨"assistant".toList, "[AI failed to generate a response]".toList, none⟩,
            true⟩
        else
          ⟨[], some aiResponseContent,
            addMessageToHistory cfg.maxHistorySize
              (addMessageToHistory cfg.maxHistorySize h0 channelId
                ⟨"user".toList, userMessageForHistory cfg msg env, none⟩)
              channelId ⟨"assistant".toList, aiResponseContent, none⟩,
            true⟩

/-! ## Persistence: `saveHistory` / `loadHistory` (src/utils/historyManager.js)

`saveHistory` writes `JSON.stringify(Object.fromEntries(map), null, 2)`;
`loadHistory` reads the file back with `JSON.parse` and `Object.entries`.
The printer below reproduces `JSON.stringify` with a 2-space gap on the
history shape (an object of arrays of `{role, content, timestamp?}`
string-field objects); the parser is `JSON.parse` restricted to that
grammar (whitespace-insensitive, full escape handling, whole-input), which
agrees with `JSON.parse` on every file `saveHistory` writes.  Object
property order is modelled as insertion order; JavaScript's numeric-key
reordering permutes entries but never changes the mapping. -/

/-- Hexadecimal digit character (lowercase, as `JSON.stringify` emits). -/
def hexDigit (n : Nat) : Char :=
  if n < 10 then Char.ofNat ('0'.toNat + n) else Char.ofNat ('a'.toNat + (n - 10))

/-- Value of a hexadecimal digit character (`JSON.parse` accepts both
cases). -/
def hexVal (c : Char) : Option Nat :=
  if '0' ≤ c ∧ c ≤ '9' then some (c.toNat - '0'.toNat)
  else if 'a' ≤ c ∧ c ≤ 'f' then some (c.toNat - 'a'.toNat + 10)
  else if 'A' ≤ c ∧ c ≤ 'F' then some (c.toNat - 'A'.toNat + 10)
  else none

/-- The escape `JSON.stringify` applies to one string character. -/
def escapeChar (c : Char) : Str :=
  if c = '"' then ['\\', '"']
  else if c = '\\' then ['\\', '\\']
  else if c = Char.ofNat 8 then ['\\', 'b']
  else if c = Char.ofNat 12 then ['\\', 'f']
  else if c = '\n' then ['\\', 'n']
  else if c = Char.ofNat 13 then ['\\', 'r']
  else if c = '\t' then ['\\', 't']
  else if c.toNat < 32 then
    ['\\', 'u', '0', '0', hexDigit (c.toNat / 16), hexDigit (c.toNat % 16)]
  else [c]

def escapeStr : Str → Str
  | [] => []
  | c :: rest => escapeChar c ++ escapeStr rest

/-- A JSON string literal, quotes included. -/
def printString (s : Str) : Str := '"' :: (escapeStr s ++ ['"'])

/-- One turn object as `JSON.stringify(_, null, 2)` prints it at depth 2
(members at indent 6, closing brace at indent 4); the `timestamp` member
is omitted for `undefined`. -/
def printTurn (t : Turn) : Str :=
  "\x7b\n      ".toList ++ printString "role".toList ++ ": ".toList ++ printString t.role ++
    ",\n      ".toList ++ printString "content".toList ++ ": ".toList ++ printString t.content ++
    (match t.timestamp with
      | none => []
      | some ts => ",\n      ".toList ++ printString "timestamp".toList ++ ": ".toList ++
          printString ts) ++
    "\n    \x7d".toList

def printTurnItems (v : List Turn) : Str :=
  joinSep ",\n".toList (v.map (fun t => "    ".toList ++ printTurn t))

/-- A turn array at depth 1 (items at indent 4, closing bracket at
indent 2). -/
def printTurnList (v : List Turn) : Str :=
  if v = [] then "[]".toList
  else "[\n".toList ++ printTurnItems v ++ "\n  ]".toList

def printEntryItems (m : HistMap) : Str :=
  joinSep ",\n".toList
    (m.map (fun e => "  ".toList ++ printString e.1 ++ ": ".toList ++ printTurnList e.2))

/-- `JSON.stringify(historyObject, null, 2)`. -/
def printHistory (m : HistMap) : Str :=
  if m = [] then "\x7b\x7d".toList
  else "\x7b\n".toList ++ printEntryItems m ++ "\n\x7d".toList

/-- The whitespace `JSON.parse` skips between tokens. -/
def isJsonWs (c : Char) : Bool :=
  c = ' ' || c = '\t' || c = '\n' || c = '\r'

def skipWs (s : Str) : Str := s.dropWhile isJsonWs

/-- The single-character string escapes of JSON. -/
def unescape (c : Char) : Option Char :=
  if c = '"' then some '"'
  else if c = '\\' then some '\\'
  else if c = '/' then some '/'
  else if c = 'b' then some (Char.ofNat 8)
  else if c = 'f' then some (Char.ofNat 12)
  else if c = 'n' then some '\n'
  else if c = 'r' then some (Char.ofNat 13)
  else if c = 't' then some '\t'
  else none

/-- The body of a JSON string literal, after the opening quote: returns
the decoded content and the input after the closing quote.  Raw control
characters are a parse error; `\uXXXX` decodes to the scalar value (the
printer only emits it for control characters, where this agrees with
JSON's UTF-16 reading).  One fuel unit is spent per decoded character, so
the input length is always enough fuel. -/
def parseStringBody : Nat → Str → Option (Str × Str)
  | 0, _ => none
  | _ + 1, [] => none
  | fuel + 1, c :: rest =>
    if c = '"' then some ([], rest)
    else if c = '\\' then
      match rest with
      | [] => none
      | e :: rest2 =>
        if e = 'u' then
          match rest2 with
          | a :: b :: c2 :: d :: rest3 =>
            match hexVal a, hexVal b, hexVal c2, hexVal d, parseStringBody fuel rest3 with
            | some ha, some hb, some hc, some hd, some (scont, r) =>
              some (Char.ofNat (((ha * 16 + hb) * 16 + hc) * 16 + hd) :: scont, r)
            | _, _, _, _, _ => none
          | _ => none
        else
          match unescape e, parseStringBody fuel rest2 with
          | some ec, some (scont, r) => some (ec :: scont, r)
          | _, _ => none
    else if c.toNat < 32 then none
    else
      match parseStringBody fuel rest with
      | some (scont, r) => some (c :: scont, r)
      | none => none

/-- A JSON string literal (no leading whitespace skipping). -/
def parseString (s : Str) : Option (Str × Str) :=
  match s with
  | '"' :: rest => parseStringBody rest.length rest
  | _ => none

def expectChar (c : Char) (s : Str) : Option Str :=
  match s with
  | x :: rest => if x = c then some rest else none
  | [] => none

/-- One `{role, content, timestamp?}` object, in the member order
`saveHistory` writes. -/
def parseTurn (s : Str) : Option (Turn × Str) := do
  let s ← expectChar '{' (skipWs s)
  let (k1, s) ← parseString (skipWs s)
  if k1 ≠ "role".toList then none else
  let s ← expectChar ':' (skipWs s)
  let (role, s) ← parseString (skipWs s)
  let s ← expectChar ',' (skipWs s)
  let (k2, s) ← parseString (skipWs s)
  if k2 ≠ "content".toList then none else
  let s ← expectChar ':' (skipWs s)
  let (content, s) ← parseString (skipWs s)
  match skipWs s with
  | '}' :: rest => some (⟨role, content, none⟩, rest)
  | ',' :: rest => do
    let (k3, s) ← parseString (skipWs rest)
    if k3 ≠ "timestamp".toList then none else
    let s ← expectChar ':' (skipWs s)
    let (ts, s) ← parseString (skipWs s)
    let s ← expectChar '}' (skipWs s)
    some (⟨role, content, some ts⟩, s)
  | _ => none

/-- The comma-separated items of a non-empty turn array, consuming the
closing bracket; one fuel unit per item. -/
def parseTurnsAux : Nat → Str → Option (List Turn × Str)
  | 0, _ => none
  | fuel + 1, s => do
    let (t, s) ← parseTurn s
    match skipWs s with
    | ',' :: rest => do
      let (ts, s) ← parseTurnsAux fuel rest
      some (t :: ts, s)
    | ']' :: rest => some ([t], rest)
    | _ => none

/-- A turn array. -/
def parseTurnList (s : Str) : Option (List Turn × Str) :=
  match skipWs s with
  | '[' :: rest =>
    match skipWs rest with
    | ']' :: rest2 => some ([], rest2)
    | _ => parseTurnsAux (rest.length + 1) rest
  | _ => none

/-- The comma-separated members of a non-empty history object, consuming
the closing brace; one fuel unit per member. -/
def parseEntriesAux : Nat → Str → Option (HistMap × Str)
  | 0, _ => none
  | fuel + 1, s => do
    let (k, s) ← parseString (skipWs s)
    let s ← expectChar ':' (skipWs s)
    let (v, s) ← parseTurnList s
    match skipWs s with
    | ',' :: rest => do
      let (es, s) ← parseEntriesAux fuel rest
      some ((k, v) :: es, s)
    | '}' :: rest => some ([(k, v)], rest)
    | _ => none

def parseHistoryObject (s : Str) : Option (HistMap × Str) :=
  match skipWs s with
  | '{' :: rest =>
    match skipWs rest with
    | '}' :: rest2 => some ([], rest2)
    | _ => parseEntriesAux (rest.length + 1) rest
  | _ => none

/-- `JSON.parse` of a history file: the top-level object with only
trailing whitespace allowed after it. -/
def jsonParseHistory (s : Str) : Option HistMap := do
  let (m, rest) ← parseHistoryObject s
  if skipWs rest = [] then some m else none

/-- `saveHistory`: skip the write when the map is empty and no file
exists, otherwise (over)write the serialized map.  The file is modelled
as `Option Str` (`none` = absent). -/
def saveHistory (m : HistMap) (file : Option Str) : Option Str :=
  if m.length = 0 ∧ file = none then file else some (printHistory m)

/-- `loadHistory`: an absent or malformed file yields the empty map. -/
def loadHistory (file : Option Str) : HistMap :=
  match file with
  | none => []
  | some data =>
    match jsonParseHistory data with
    | some m => m
    | none => []

/-! ## Theorems -/

theorem lastN_length_le (n : Nat) (l : List α) : (lastN n l).length ≤ n := by
  simp only [lastN, List.length_drop]
  omega

theorem lastN_of_length_le (n : Nat) (l : List α) (h : l.length ≤ n) : lastN n l = l := by
  simp only [lastN]
  have : l.length - n = 0 := by omega
  simp [this]

theorem lastN_eq_reverse_take (n : Nat) (l : List α) :
    lastN n l = (l.reverse.take n).reverse :=
  List.rtake_eq_reverse_take_reverse (l := l) (n := n)

theorem lastN_append_lastN (n : Nat) (s t : List α) :
    lastN n (lastN n s ++ t) = lastN n (s ++ t) := by
  rw [lastN_eq_reverse_take, lastN_eq_reverse_take, lastN_eq_reverse_take,
    List.reverse_append, List.reverse_reverse, List.reverse_append]
  congr 1
  rw [List.take_append_eq_append_take, List.take_append_eq_append_take, List.take_take]
  congr 1
  rw [Nat.min_comm, Nat.min_eq_right (Nat.sub_le _ _)]

/-- Appending one message under a positive bound stores exactly the last
`N` of (previous stored ++ new message). -/
theorem addMessageToHistory_get_pos (N : Int) (hN : 0 < N) (m : HistMap)
    (cid : Str) (msg : Turn) :
    getChannelHistory (addMessageToHistory N m cid msg) cid =
      lastN N.toNat (getChannelHistory m cid ++ [msg]) := by
  have hN0 : ¬ (N = 0) := by omega
  unfold addMessageToHistory
  simp only [hN0, if_false]
  set h0 := getChannelHistory m cid ++ [msg] with hh0
  have hget : ∀ v, getChannelHistory (updateChannelHistory m cid v) cid = v := by
    intro v
    unfold getChannelHistory updateChannelHistory
    induction m with
    | nil => simp [mapSet, mapGet]
    | cons hd tl ih =>
      obtain ⟨k', v'⟩ := hd
      by_cases hk : k' = cid
      · simp [mapSet, mapGet, hk]
      · simp [mapSet, mapGet, hk, ih]
  by_cases hb : (h0.length : Int) > N
  · have hcond : N > 0 ∧ (h0.length : Int) > N := ⟨hN, hb⟩
    simp only [hcond, and_self, if_true, hget]
    rfl
  · have hcond : ¬ (N > 0 ∧ (h0.length : Int) > N) := by
      intro ⟨_, h2⟩; exact hb h2
    simp only [hcond, if_false, hget]
    rw [lastN_of_length_le]
    omega

/-- Folding a sequence of appends under a positive bound: starting from a
stored history within the bound, the stored history afterwards is the last
`N` of (initial stored ++ all appended), in order. -/
theorem addMessageToHistory_foldl (N : Int) (hN : 0 < N) (m : HistMap)
    (cid : Str) (msgs : List Turn)
    (hm : (getChannelHistory m cid).length ≤ N.toNat) :
    getChannelHistory (msgs.foldl (fun acc msg => addMessageToHistory N acc cid msg) m) cid =
      lastN N.toNat (getChannelHistory m cid ++ msgs) := by
  induction msgs generalizing m with
  | nil =>
    simp only [List.foldl_nil, List.append_nil]
    rw [lastN_of_length_le _ _ hm]
  | cons hd tl ih =>
    simp only [List.foldl_cons]
    rw [ih _ (by rw [addMessageToHistory_get_pos N hN]; exact lastN_length_le _ _),
      addMessageToHistory_get_pos N hN, lastN_append_lastN]
    simp

theorem mapGet_eq_none_of_not_mem (m : HistMap) (k : Str)
    (h : k ∉ m.map Prod.fst) : mapGet m k = none := by
  induction m with
  | nil => rfl
  | cons hd tl ih =>
    obtain ⟨k', v'⟩ := hd
    simp only [List.map_cons, List.mem_cons] at h
    push_neg at h
    have hne : ¬ (k' = k) := fun hk => h.1 hk.symm
    simp only [mapGet, if_neg hne]
    exact ih h.2

theorem mapGet_mapDelete_self (m : HistMap) (k : Str)
    (hnd : (m.map Prod.fst).Nodup) : mapGet (mapDelete m k) k = none := by
  induction m with
  | nil => rfl
  | cons hd tl ih =>
    obtain ⟨k', v'⟩ := hd
    simp only [List.map_cons, List.nodup_cons] at hnd
    by_cases hk : k' = k
    · subst hk
      simpa [mapDelete] using mapGet_eq_none_of_not_mem tl k' hnd.1
    · simp only [mapDelete, if_neg hk, mapGet, if_neg hk]
      exact ih hnd.2

/-- **C1.** With `MAX_HISTORY_SIZE = N > 0`, after any sequence of appends
through `addMessageToHistory` (starting from an empty store),
`getChannelHistory` returns at most `N` turns, and exactly the most
recently appended `N` turns in their original append order. -/
theorem claim_C1_bounded_retention (N : Int) (hN : 0 < N) (cid : Str) (msgs : List Turn) :
    (getChannelHistory (msgs.foldl (fun acc msg => addMessageToHistory N acc cid msg) []) cid).length
        ≤ N.toNat ∧
    getChannelHistory (msgs.foldl (fun acc msg => addMessageToHistory N acc cid msg) []) cid
        = msgs.drop (msgs.length - N.toNat) := by
  have h0 : getChannelHistory ([] : HistMap) cid = [] := rfl
  have h := addMessageToHistory_foldl N hN [] cid msgs (by rw [h0]; simp)
  rw [h0] at h
  simp only [List.nil_append] at h
  exact ⟨h ▸ lastN_length_le _ _, h⟩

/-- **C1 witness.** The spec's scenario: `Bounded(2)`, appending turns
A, B, C in order yields exactly `[B, C]`. -/
theorem claim_C1_bounded_retention_witness :
    getChannelHistory
      ([mkTurn "user" "A", mkTurn "assistant" "B", mkTurn "user" "C"].foldl
        (fun acc msg => addMessageToHistory 2 acc "chan".toList msg) []) "chan".toList
      = [mkTurn "assistant" "B", mkTurn "user" "C"] := by
  have h := (claim_C1_bounded_retention 2 (by decide) "chan".toList
    [mkTurn "user" "A", mkTurn "assistant" "B", mkTurn "user" "C"]).2
  simpa using h

/-- **C8.** With `MAX_HISTORY_SIZE = 0` (one-shot retention), after any
call to `addMessageToHistory` for a conversation id — whatever was stored
before — `getChannelHistory` for that id returns the empty sequence.
(The store is an association-list model of a JS `Map`, whose keys are
unique, hence the `Nodup` hypothesis.) -/
theorem claim_C8_oneshot_empty (m : HistMap) (cid : Str) (msg : Turn)
    (hnd : (m.map Prod.fst).Nodup) :
    getChannelHistory (addMessageToHistory 0 m cid msg) cid = [] := by
  have hstep : addMessageToHistory 0 m cid msg =
      if mapHas m cid then mapDelete m cid else m := by
    unfold addMessageToHistory; simp
  rw [hstep]
  by_cases hh : mapHas m cid
  · rw [if_pos hh]
    simp [getChannelHistory, mapGet_mapDelete_self m cid hnd]
  · rw [if_neg hh]
    cases hg : mapGet m cid with
    | none => simp [getChannelHistory, hg]
    | some v => exact absurd (by simp [mapHas, hg]) hh

/-- **C8 witness.** One-shot append on a store that already holds turns
for the conversation leaves a subsequent `get` empty. -/
theorem claim_C8_oneshot_empty_witness :
    getChannelHistory
      (addMessageToHistory 0 [("chan".toList, [mkTurn "user" "A"])] "chan".toList
        (mkTurn "user" "B")) "chan".toList = [] :=
  claim_C8_oneshot_empty [("chan".toList, [mkTurn "user" "A"])] "chan".toList
    (mkTurn "user" "B") (by simp)

theorem length_dropWhile_le (p : α → Bool) (l : List α) :
    (l.dropWhile p).length ≤ l.length := by
  induction l with
  | nil => simp
  | cons hd tl ih =>
    by_cases h : p hd
    · simp only [List.dropWhile, h, List.length_cons]
      omega
    · simp [List.dropWhile, h]

theorem jsTrim_length_le (l : Str) : (jsTrim l).length ≤ l.length := by
  have h1 : (jsTrim l).length ≤ (l.dropWhile Char.isWhitespace).length := by
    simpa [jsTrim, List.rdropWhile] using
      length_dropWhile_le Char.isWhitespace (l.dropWhile Char.isWhitespace).reverse
  exact le_trans h1 (length_dropWhile_le _ l)

theorem hardSplitGo_chunk_le (m fuel : Nat) (l : Str) :
    ∀ c ∈ hardSplitGo m fuel l, c.length ≤ m := by
  induction fuel generalizing l with
  | zero => simp [hardSplitGo]
  | succ n ih =>
    cases l with
    | nil => simp [hardSplitGo]
    | cons hd tl =>
      intro c hc
      simp only [hardSplitGo, List.mem_cons] at hc
      rcases hc with rfl | hc
      · exact List.length_take_le _ _
      · exact ih _ c hc

theorem hardSplit_chunk_le (m : Nat) (l : Str) :
    ∀ c ∈ hardSplit m l, c.length ≤ m :=
  hardSplitGo_chunk_le m l.length l

/-- Every chunk the safeguard pass emits has length at most `maxLength`,
whatever list it is given. -/
theorem safeguard_chunk_le (m : Nat) (chunks : List Str) :
    ∀ c ∈ safeguard m chunks, c.length ≤ m := by
  unfold safeguard
  suffices h : ∀ acc : List Str, (∀ c ∈ acc, c.length ≤ m) →
      ∀ c ∈ chunks.foldl (fun acc chunk =>
        if chunk.length > m then acc ++ hardSplit m chunk
        else if 0 < (jsTrim chunk).length then acc ++ [chunk] else acc) acc,
      c.length ≤ m by
    exact h [] (by simp)
  induction chunks with
  | nil => intro acc hacc; simpa using hacc
  | cons hd tl ih =>
    intro acc hacc
    simp only [List.foldl_cons]
    apply ih
    intro c hc
    by_cases h1 : hd.length > m
    · rw [if_pos h1] at hc
      rcases List.mem_append.mp hc with h | h
      · exact hacc c h
      · exact hardSplit_chunk_le m hd c h
    · rw [if_neg h1] at hc
      by_cases h2 : 0 < (jsTrim hd).length
      · rw [if_pos h2] at hc
        rcases List.mem_append.mp hc with h | h
        · exact hacc c h
        · simp only [List.mem_singleton] at h
          subst h
          omega
      · rw [if_neg h2] at hc
        exact hacc c hc

/-- **C2 counterexample.** The claim quantifies over every positive
maximum length, but for a whitespace-only input and maximum length `1`
`splitMessage` returns the three-character placeholder `"..."`. -/
theorem claim_C2_counterexample :
    ¬ (∀ c ∈ splitMessage " ".toList 1, c.length ≤ 1) := by decide

/-- **C2 (amended).** For every input string and every maximum length of
at least 3 (the length of the `"..."` placeholder), every chunk returned
by `splitMessage` has length at most that maximum — including for inputs
with no newline or other natural break points. -/
theorem claim_C2_chunk_length (text : Str) (maxLength : Nat) (h3 : 3 ≤ maxLength) :
    ∀ c ∈ splitMessage text maxLength, c.length ≤ maxLength := by
  intro c hc
  unfold splitMessage at hc
  have hdots : placeholderDots.length ≤ maxLength := by
    have h : placeholderDots.length = 3 := by decide
    omega
  by_cases h0 : text.length = 0
  · rw [if_pos h0] at hc
    simp only [List.mem_singleton] at hc
    subst hc
    exact hdots
  · rw [if_neg h0] at hc
    simp only at hc
    by_cases he : (safeguard maxLength (preChunks maxLength text)).length = 0
    · rw [if_pos he] at hc
      simp only [List.mem_singleton] at hc
      subst hc
      exact hdots
    · rw [if_neg he] at hc
      exact safeguard_chunk_le maxLength _ c hc

/-- **C2 witness.** A concrete run at maximum length 3: the chunks of
`"ab\ncdef"` are `["ab", "cde", "f"]`, all within the bound. -/
theorem claim_C2_chunk_length_witness :
    splitMessage "ab\ncdef".toList 3 = ["ab".toList, "cde".toList, "f".toList] ∧
    ∀ c ∈ splitMessage "ab\ncdef".toList 3, c.length ≤ 3 :=
  ⟨by decide, claim_C2_chunk_length "ab\ncdef".toList 3 (by decide)⟩

/-- The invariant of the main accumulation loop: accumulated chunks and
the current chunk all stay within `maxLength`. -/
theorem splitStep_invariant (m : Nat) (st : List Str × Str) (part : Str)
    (h1 : ∀ c ∈ st.1, c.length ≤ m) (h2 : st.2.length ≤ m) :
    (∀ c ∈ (splitStep m st part).1, c.length ≤ m) ∧ (splitStep m st part).2.length ≤ m := by
  obtain ⟨chunks, currentChunk⟩ := st
  simp only at h1 h2
  unfold splitStep
  simp only
  set extra := if 0 < currentChunk.length ∧ ¬(part = ['\n']) then 1 else 0 with hextra
  by_cases hover : currentChunk.length + part.length + extra > m
  · rw [if_pos hover]
    have hpush : ∀ c ∈ (if 0 < currentChunk.length then chunks ++ [jsTrim currentChunk] else chunks),
        c.length ≤ m := by
      intro c hc
      by_cases hcur : 0 < currentChunk.length
      · rw [if_pos hcur] at hc
        rcases List.mem_append.mp hc with h | h
        · exact h1 c h
        · simp only [List.mem_singleton] at h
          subst h
          exact le_trans (jsTrim_length_le _) h2
      · rw [if_neg hcur] at hc
        exact h1 c hc
    by_cases hlong : part.length > m
    · rw [if_pos hlong]
      refine ⟨fun c hc => ?_, by simp⟩
      rcases List.mem_append.mp hc with h | h
      · exact hpush c h
      · exact hardSplit_chunk_le m part c h
    · rw [if_neg hlong]
      exact ⟨hpush, by simpa using Nat.le_of_not_lt hlong⟩
  · rw [if_neg hover]
    refine ⟨h1, ?_⟩
    by_cases hsp : 0 < currentChunk.length ∧ ¬(part = ['\n']) ∧ 0 < (jsTrim part).length
    · rw [if_pos hsp]
      simp only [List.length_append, List.length_singleton]
      have : extra = 1 := by
        rw [hextra, if_pos ⟨hsp.1, hsp.2.1⟩]
      omega
    · rw [if_neg hsp]
      simp only [List.length_append]
      have : extra ≤ 1 := by
        rw [hextra]
        split <;> omega
      omega

theorem splitLoop_invariant (m : Nat) (parts : List Str) (st : List Str × Str)
    (h1 : ∀ c ∈ st.1, c.length ≤ m) (h2 : st.2.length ≤ m) :
    (∀ c ∈ (parts.foldl (splitStep m) st).1, c.length ≤ m) ∧
    (parts.foldl (splitStep m) st).2.length ≤ m := by
  induction parts generalizing st with
  | nil => exact ⟨h1, h2⟩
  | cons hd tl ih =>
    simp only [List.foldl_cons]
    obtain ⟨g1, g2⟩ := splitStep_invariant m st hd h1 h2
    exact ih _ g1 g2

/-- Every chunk entering the safeguard pass is already within the bound,
so the safeguard's force-split branch is never taken on real runs. -/
theorem preChunks_chunk_le (m : Nat) (text : Str) :
    ∀ c ∈ preChunks m text, c.length ≤ m := by
  intro c hc
  unfold preChunks at hc
  simp only at hc
  set st := (splitKeepNl (normalizeNewlines text)).foldl (splitStep m) ([], []) with hst
  obtain ⟨g1, g2⟩ := splitLoop_invariant m (splitKeepNl (normalizeNewlines text)) ([], [])
    (by simp) (by simp)
  rw [← hst] at g1 g2
  by_cases hfb : ((if 0 < (jsTrim st.2).length then st.1 ++ [jsTrim st.2] else st.1)).length = 0
      ∧ 0 < (jsTrim text).length
  · rw [if_pos hfb] at hc
    exact hardSplit_chunk_le m text c hc
  · rw [if_neg hfb] at hc
    by_cases htr : 0 < (jsTrim st.2).length
    · rw [if_pos htr] at hc
      rcases List.mem_append.mp hc with h | h
      · exact g1 c h
      · simp only [List.mem_singleton] at h
        subst h
        exact le_trans (jsTrim_length_le _) g2
    · rw [if_neg htr] at hc
      exact g1 c hc

/-- On a list of chunks already within the bound, the safeguard emits only
chunks with non-blank trimmed content. -/
theorem safeguard_nonblank (m : Nat) (chunks : List Str)
    (hin : ∀ c ∈ chunks, c.length ≤ m) :
    ∀ c ∈ safeguard m chunks, 0 < (jsTrim c).length := by
  unfold safeguard
  suffices h : ∀ acc : List Str, (∀ c ∈ acc, 0 < (jsTrim c).length) →
      (∀ c ∈ chunks, c.length ≤ m) →
      ∀ c ∈ chunks.foldl (fun acc chunk =>
        if chunk.length > m then acc ++ hardSplit m chunk
        else if 0 < (jsTrim chunk).length then acc ++ [chunk] else acc) acc,
      0 < (jsTrim c).length by
    exact h [] (by simp) hin
  clear hin
  induction chunks with
  | nil => intro acc hacc _; simpa using hacc
  | cons hd tl ih =>
    intro acc hacc hin
    simp only [List.foldl_cons]
    have hhd : ¬ (hd.length > m) := by
      have := hin hd (by simp)
      omega
    rw [if_neg hhd]
    apply ih
    · intro c hc
      by_cases h2 : 0 < (jsTrim hd).length
      · rw [if_pos h2] at hc
        rcases List.mem_append.mp hc with h | h
        · exact hacc c h
        · simp only [List.mem_singleton] at h
          subst h
          exact h2
      · rw [if_neg h2] at hc
        exact hacc c hc
    · intro c hc
      exact hin c (by simp [hc])

/-- **C9.** For every input whose trimmed form is non-empty (and a
positive maximum length, as configured), `splitMessage` returns a
non-empty list, and no returned chunk is empty or whitespace-only. -/
theorem claim_C9_nonempty_nonblank (text : Str) (maxLength : Nat)
    (_hm : 0 < maxLength) (_ht : jsTrim text ≠ []) :
    splitMessage text maxLength ≠ [] ∧
    ∀ c ∈ splitMessage text maxLength, c ≠ [] ∧ jsTrim c ≠ [] := by
  have hdots : jsTrim placeholderDots ≠ [] := by decide
  unfold splitMessage
  by_cases h0 : text.length = 0
  · rw [if_pos h0]
    refine ⟨by simp, ?_⟩
    intro c hc
    simp only [List.mem_singleton] at hc
    subst hc
    exact ⟨by decide, hdots⟩
  · rw [if_neg h0]
    simp only
    by_cases he : (safeguard maxLength (preChunks maxLength text)).length = 0
    · rw [if_pos he]
      refine ⟨by simp, ?_⟩
      intro c hc
      simp only [List.mem_singleton] at hc
      subst hc
      exact ⟨by decide, hdots⟩
    · rw [if_neg he]
      refine ⟨fun hnil => he (by rw [hnil]; rfl), ?_⟩
      intro c hc
      have hnb := safeguard_nonblank maxLength (preChunks maxLength text)
        (preChunks_chunk_le maxLength text) c hc
      refine ⟨fun hnil => ?_, fun hnil => by rw [hnil] at hnb; simp at hnb⟩
      rw [hnil] at hnb
      simp [jsTrim, List.rdropWhile] at hnb

/-- **C9 witness.** A concrete run: `" hi "` at maximum length 5 yields
the single non-blank chunk `"hi"`. -/
theorem claim_C9_nonempty_nonblank_witness :
    splitMessage " hi ".toList 5 = ["hi".toList] ∧
    splitMessage " hi ".toList 5 ≠ [] ∧
    ∀ c ∈ splitMessage " hi ".toList 5, c ≠ [] ∧ jsTrim c ≠ [] :=
  ⟨by decide, claim_C9_nonempty_nonblank " hi ".toList 5 (by decide) (by decide)⟩

theorem geminiKeep_iff (g : GeminiMsg) :
    geminiKeep g = true ↔ ∀ p ∈ g.parts, p ≠ [] ∧ jsTrim p ≠ [] := by
  simp only [geminiKeep, List.all_eq_true, Bool.and_eq_true, Bool.not_eq_true',
    List.isEmpty_eq_false]

/-- **C6 counterexample.** The claim quantifies over all non-empty
contents, but with the (non-empty) whitespace content `" "` in the first
two user turns the whole first merged turn is dropped, leaving roles
`[model, user]` instead of `[user, model, user]`. -/
theorem claim_C6_counterexample :
    (formatMessagesForGemini
        [mkTurn "user" " ", mkTurn "user" " ",
         mkTurn "assistant" "x", mkTurn "assistant" "y",
         mkTurn "user" "z"]).map GeminiMsg.role
      ≠ ["user".toList, "model".toList, "user".toList] := by decide

/-- **C6 (amended).** For the turn sequence
`[User, User, Assistant, Assistant, User]` whose contents are non-blank
(non-empty after trimming), `formatMessagesForGemini` returns exactly 3
merged turns in roles `[user, model, user]`, each carrying the contents of
its consecutive same-role inputs as parts. -/
theorem claim_C6_role_compaction (c1 c2 c3 c4 c5 : Str)
    (h1 : jsTrim c1 ≠ []) (h2 : jsTrim c2 ≠ []) (h3 : jsTrim c3 ≠ [])
    (h4 : jsTrim c4 ≠ []) (h5 : jsTrim c5 ≠ []) :
    formatMessagesForGemini
        [⟨"user".toList, c1, none⟩, ⟨"user".toList, c2, none⟩,
         ⟨"assistant".toList, c3, none⟩, ⟨"assistant".toList, c4, none⟩,
         ⟨"user".toList, c5, none⟩]
      = [⟨"user".toList, [c1, c2]⟩, ⟨"model".toList, [c3, c4]⟩, ⟨"user".toList, [c5]⟩] := by
  have hne : ∀ c : Str, jsTrim c ≠ [] → c ≠ [] := by
    intro c h hc
    exact h (by rw [hc]; rfl)
  simp [formatMessagesForGemini, mergeMessages, geminiStep, geminiKeep,
    List.isEmpty_iff, h1, h2, h3, h4, h5, hne c1 h1, hne c2 h2, hne c3 h3, hne c4 h4, hne c5 h5]

/-- **C6 witness.** A concrete run with contents a, b, c, d, e. -/
theorem claim_C6_role_compaction_witness :
    formatMessagesForGemini
        [mkTurn "user" "a", mkTurn "user" "b", mkTurn "assistant" "c",
         mkTurn "assistant" "d", mkTurn "user" "e"]
      = [⟨"user".toList, ["a".toList, "b".toList]⟩,
         ⟨"model".toList, ["c".toList, "d".toList]⟩,
         ⟨"user".toList, ["e".toList]⟩] :=
  claim_C6_role_compaction "a".toList "b".toList "c".toList "d".toList "e".toList
    (by decide) (by decide) (by decide) (by decide) (by decide)

/-- **C7 counterexample.** Merging `[user "hello", user ""]` gives one
merged turn with parts `["hello", ""]`; the filter then removes the whole
merged turn, so the non-empty part `"hello"` is lost — the code does not
drop only the empty parts. -/
theorem claim_C7_counterexample :
    mergeMessages [mkTurn "user" "hello", mkTurn "user" ""]
        = [⟨"user".toList, ["hello".toList, [] ]⟩] ∧
    formatMessagesForGemini [mkTurn "user" "hello", mkTurn "user" ""] = [] := by decide

/-- **C7 (amended).** The filter works at merged-turn granularity: a
merged turn is kept (with all of its parts) exactly when every one of its
parts is non-empty and non-blank; a merged turn containing any empty or
whitespace-only part is removed entirely. -/
theorem claim_C7_blank_part_filter (msgs : List Turn) :
    (∀ g ∈ formatMessagesForGemini msgs,
        g ∈ mergeMessages msgs ∧ ∀ p ∈ g.parts, p ≠ [] ∧ jsTrim p ≠ []) ∧
    (∀ g ∈ mergeMessages msgs,
        (g ∈ formatMessagesForGemini msgs ↔ ∀ p ∈ g.parts, p ≠ [] ∧ jsTrim p ≠ [])) := by
  constructor
  · intro g hg
    rw [formatMessagesForGemini, List.mem_filter] at hg
    exact ⟨hg.1, (geminiKeep_iff g).mp hg.2⟩
  · intro g hg
    rw [formatMessagesForGemini, List.mem_filter, ← geminiKeep_iff g]
    exact ⟨fun h => h.2, fun h => ⟨hg, h⟩⟩

/-- **C7 witness.** Applying the amended characterization at a concrete
input: the merged turn of `[user "hi"]` has only non-blank parts and is
kept. -/
theorem claim_C7_blank_part_filter_witness :
    (⟨"user".toList, ["hi".toList]⟩ : GeminiMsg)
      ∈ formatMessagesForGemini [mkTurn "user" "hi"] :=
  ((claim_C7_blank_part_filter [mkTurn "user" "hi"]).2
    ⟨"user".toList, ["hi".toList]⟩ (by decide)).mpr (by decide)

/-- **C3 counterexample.** A fire whose target user cannot be fetched
returns from inside the `try` block before the trailing reschedule: the
scheduler is left with no pending timer, contradicting the claim. -/
theorem claim_C3_counterexample :
    (sendProactiveMessage true
        ⟨true, ["dm_123".toList], 60, 240, [], 20⟩
        ⟨0, fun _ => false, fun _ => false, false, none, 0, true, 0⟩
        [] [] ).nextTimer = none := by decide

/-- **C3 (amended).** When the chosen target resolves, every fire — sent,
chance-skipped, generation-failed or send-failed — schedules a next timer
with an interval inside the configured `[min, max]` minute range; but when
the target user/channel fails to resolve, the fire returns with no
pending timer (and likewise when no target is configured). -/
theorem claim_C3_reschedule (cfg : ProactiveConfig) (env : ProactiveEnv)
    (h : HistMap) (ts : Str) (tid : Str)
    (hen : cfg.enableProactiveMessaging = true)
    (htgt : chooseRandomTarget cfg.proactiveTargets env.targetDraw = some tid)
    (hmin : 0 < cfg.proactiveMinInterval)
    (hminmax : cfg.proactiveMinInterval ≤ cfg.proactiveMaxInterval) :
    ((if tid.take 3 = "dm_".toList then env.userFetchOk (tid.drop 3)
        else env.channelFetchOk tid) = true →
      ∃ i, (sendProactiveMessage true cfg env h ts).nextTimer = some i ∧
        cfg.proactiveMinInterval * 60000 ≤ i ∧ i ≤ cfg.proactiveMaxInterval * 60000) ∧
    ((if tid.take 3 = "dm_".toList then env.userFetchOk (tid.drop 3)
        else env.channelFetchOk tid) = false →
      (sendProactiveMessage true cfg env h ts).nextTimer = none) := by
  have hsched : scheduleNextProactiveMessage cfg env.intervalDraw =
      some (getRandomInterval cfg.proactiveMinInterval cfg.proactiveMaxInterval
        env.intervalDraw) := by
    unfold scheduleNextProactiveMessage
    rw [if_neg (by simp [hen])]
    unfold orElseNat
    rw [if_neg (by omega), if_neg (by omega)]
  have hbound : cfg.proactiveMinInterval * 60000 ≤
        getRandomInterval cfg.proactiveMinInterval cfg.proactiveMaxInterval env.intervalDraw ∧
      getRandomInterval cfg.proactiveMinInterval cfg.proactiveMaxInterval env.intervalDraw ≤
        cfg.proactiveMaxInterval * 60000 := by
    unfold getRandomInterval
    have hmod : env.intervalDraw % (cfg.proactiveMaxInterval - cfg.proactiveMinInterval + 1)
        ≤ cfg.proactiveMaxInterval - cfg.proactiveMinInterval := by
      have := Nat.mod_lt env.intervalDraw
        (y := cfg.proactiveMaxInterval - cfg.proactiveMinInterval + 1) (by omega)
      omega
    constructor <;> omega
  have hcall : sendProactiveMessage true cfg env h ts = proactiveFire cfg env h ts tid := by
    unfold sendProactiveMessage
    rw [if_neg (by simp [hen]), htgt]
  rw [hcall]
  unfold proactiveFire
  obtain ⟨b, hb⟩ : ∃ b, (if tid.take 3 = "dm_".toList then env.userFetchOk (tid.drop 3)
      else env.channelFetchOk tid) = b := ⟨_, rfl⟩
  simp only [hb]
  cases b with
  | false =>
    refine ⟨fun hfetch => absurd hfetch (by simp), fun _ => ?_⟩
    rw [if_pos (by simp)]
  | true =>
    refine ⟨fun _ => ?_, fun hfetch => absurd hfetch (by simp)⟩
    rw [if_neg (by simp)]
    by_cases hskip : env.skipDraw
    · rw [if_pos hskip]
      exact ⟨_, hsched, hbound.1, hbound.2⟩
    · rw [if_neg hskip]
      cases hgen : generateProactiveMessage cfg env.genResult env.fallbackDraw with
      | none => exact ⟨_, hsched, hbound.1, hbound.2⟩
      | some message =>
        dsimp only
        by_cases hsend : env.sendOk
        · rw [if_neg (by simp [hsend])]
          exact ⟨_, hsched, hbound.1, hbound.2⟩
        · rw [if_pos (by simp [hsend])]
          exact ⟨_, hsched, hbound.1, hbound.2⟩

/-- **C3 witness.** A resolved chance-skipped fire at `min = 1`,
`max = 2` minutes schedules a timer within `[60000, 120000]` ms. -/
theorem claim_C3_reschedule_witness :
    ∃ i, (sendProactiveMessage true
        ⟨true, ["dm_5".toList], 1, 2, [], 20⟩
        ⟨0, fun _ => true, fun _ => true, true, none, 0, true, 0⟩
        [] [] ).nextTimer = some i ∧ 1 * 60000 ≤ i ∧ i ≤ 2 * 60000 :=
  (claim_C3_reschedule
      ⟨true, ["dm_5".toList], 1, 2, [], 20⟩
      ⟨0, fun _ => true, fun _ => true, true, none, 0, true, 0⟩
      [] [] "dm_5".toList rfl (by decide) (by decide) (by decide)).1 (by decide)

/-- **C4.** For every accepted inbound DM turn (no early filter fired)
from a user whose profile is incomplete, the pipeline replies with the
instructional message naming the required fields, does not invoke the
provider's chat operation, and leaves the stored history unchanged. -/
theorem claim_C4_profile_incomplete (cfg : HandlerConfig) (msg : InboundMessage)
    (env : HandlerEnv) (h0 : HistMap)
    (hbot : msg.authorIsBot = false)
    (hdm : msg.isDM = true)
    (hallow : cfg.allowPrivateMessages = true)
    (hct : env.commandThrew = false)
    (hcmd : env.commandHandled = false)
    (hdmallow : dmChatAllowed cfg (channelIdOf msg) = true)
    (hign : ¬(cfg.ignoreMarker ≠ [] ∧
      jsStartsWith (jsToLower (jsTrim msg.content)) (jsToLower cfg.ignoreMarker) = true))
    (htrig : ¬(usesTrigger cfg msg ∧
      ¬(jsStartsWith (jsToLower (jsTrim msg.content)) (jsToLower cfg.botTrigger) = true)))
    (hcool : env.cooldownActive = false)
    (hfinal : finalContentForAI cfg msg env ≠ [])
    (hincomp : env.userInfoComplete = false) :
    execute cfg msg env h0 =
      ⟨[dmIncompleteNotice cfg env.requiredFields], none, h0, false⟩ := by
  unfold execute
  rw [if_neg (by simp [hbot]), if_neg (by simp [hdm, hallow]), if_neg (by simp [hct]),
    if_neg (by simp [hcmd])]
  dsimp only
  rw [if_neg (by simp [hdm]), if_neg (by simp [hdm, hdmallow]), if_neg hign, if_neg htrig,
    if_neg (by simp [hcool]), if_neg hfinal, if_pos ⟨hdm, by simp [hincomp]⟩]

/-- **C4 witness.** A concrete DM from a profile-less user: the pipeline
sends only the instructional notice naming `name` and `city`, the provider
is not called, and history is untouched. -/
theorem claim_C4_profile_incomplete_witness :
    execute
      ⟨true, none, "!ignore".toList, [], true, "!ollama".toList, none, 20,
        "[NEXT_MSG]".toList, false, false, false, false, []⟩
      ⟨false, true, [], "42".toList, "u".toList, "hello".toList⟩
      ⟨false, false, false, [], false, ["name".toList, "city".toList], fun _ => none,
        "12:00 UTC".toList⟩
      [] =
      ⟨[dmIncompleteNotice
          ⟨true, none, "!ignore".toList, [], true, "!ollama".toList, none, 20,
            "[NEXT_MSG]".toList, false, false, false, false, []⟩
          ["name".toList, "city".toList]], none, [], false⟩ :=
  claim_C4_profile_incomplete _ _ _ _ rfl rfl rfl rfl rfl (by decide) (by decide) (by decide)
    rfl (by decide) rfl

/-- **C10.** On the successful path, the raw completion is rewritten —
every `"\n\n"` replaced by the configured split token and, with
`ALLOW_SINGLE_DOT` unset, every period not adjacent to another period
deleted — and it is this rewritten string, not the raw completion, that
is both stored as the assistant turn and handed to the delivery stage. -/
theorem claim_C10_response_rewrite (cfg : HandlerConfig) (msg : InboundMessage)
    (env : HandlerEnv) (h0 : HistMap) (raw : Str)
    (hbot : msg.authorIsBot = false)
    (hallow : ¬(msg.isDM = true ∧ ¬(cfg.allowPrivateMessages = true)))
    (hct : env.commandThrew = false)
    (hcmd : env.commandHandled = false)
    (htc : ¬(¬(msg.isDM = true) ∧ targetChannelBlocks cfg (channelIdOf msg) = true))
    (hdmflt : ¬(msg.isDM = true ∧ ¬(dmChatAllowed cfg (channelIdOf msg) = true)))
    (hign : ¬(cfg.ignoreMarker ≠ [] ∧
      jsStartsWith (jsToLower (jsTrim msg.content)) (jsToLower cfg.ignoreMarker) = true))
    (htrig : ¬(usesTrigger cfg msg ∧
      ¬(jsStartsWith (jsToLower (jsTrim msg.content)) (jsToLower cfg.botTrigger) = true)))
    (hcool : env.cooldownActive = false)
    (hfinal : finalContentForAI cfg msg env ≠ [])
    (hinfo : ¬(msg.isDM = true ∧ ¬(env.userInfoComplete = true)))
    (hchat : env.chatFn (messagesForAI cfg msg env h0) = some raw)
    (hdot : cfg.allowSingleDot = false)
    (hnb : jsTrim (postProcessResponse cfg raw) ≠ []) :
    execute cfg msg env h0 =
      ⟨[], some (removeSingleDots (replaceNlNl cfg.messageSplitToken raw)),
        addMessageToHistory cfg.maxHistorySize
          (addMessageToHistory cfg.maxHistorySize h0 (channelIdOf msg)
            ⟨"user".toList, userMessageForHistory cfg msg env, none⟩)
          (channelIdOf msg)
          ⟨"assistant".toList, removeSingleDots (replaceNlNl cfg.messageSplitToken raw), none⟩,
        true⟩ := by
  have hpp : postProcessResponse cfg raw =
      removeSingleDots (replaceNlNl cfg.messageSplitToken raw) := by
    unfold postProcessResponse
    rw [if_pos (by simp [hdot])]
  unfold execute
  rw [if_neg (by simp [hbot]), if_neg hallow, if_neg (by simp [hct]), if_neg (by simp [hcmd])]
  dsimp only
  rw [if_neg htc, if_neg hdmflt, if_neg hign, if_neg htrig, if_neg (by simp [hcool]),
    if_neg hfinal, if_neg hinfo, hchat]
  dsimp only
  rw [if_neg hnb, hpp]

/-- **C10 witness.** A concrete non-DM run: the completion
`"Nice. Really..\n\nBye."` is stored and delivered as
`"Nice Really..[NEXT_MSG]Bye"` — `"\n\n"` became the split token, the
isolated periods vanished, the double dots stayed. -/
theorem claim_C10_response_rewrite_witness :
    execute
      ⟨true, none, "!ignore".toList, [], true, "!ollama".toList, none, -1,
        "[NEXT_MSG]".toList, false, false, false, false, []⟩
      ⟨false, false, "c1".toList, "42".toList, "u".toList, "hello".toList⟩
      ⟨false, false, false, [], true, [], fun _ => some "Nice. Really..\n\nBye.".toList,
        "12:00 UTC".toList⟩
      [] =
      ⟨[], some "Nice Really..[NEXT_MSG]Bye".toList,
        [("c1".toList,
          [⟨"user".toList, "[Time: 12:00 UTC] hello".toList, none⟩,
           ⟨"assistant".toList, "Nice Really..[NEXT_MSG]Bye".toList, none⟩])],
        true⟩ := by
  have h := claim_C10_response_rewrite
    ⟨true, none, "!ignore".toList, [], true, "!ollama".toList, none, -1,
      "[NEXT_MSG]".toList, false, false, false, false, []⟩
    ⟨false, false, "c1".toList, "42".toList, "u".toList, "hello".toList⟩
    ⟨false, false, false, [], true, [], fun _ => some "Nice. Really..\n\nBye.".toList,
      "12:00 UTC".toList⟩
    [] "Nice. Really..\n\nBye.".toList
    rfl (by decide) rfl rfl (by decide) (by decide) (by decide) (by decide) rfl (by decide)
    (by decide) rfl rfl (by decide)
  rw [h]
  decide

theorem hexVal_hexDigit (n : Nat) (h : n < 16) : hexVal (hexDigit n) = some n := by
  interval_cases n <;> decide

theorem escapeChar_length_pos (c : Char) : 1 ≤ (escapeChar c).length := by
  unfold escapeChar
  split_ifs <;> simp

theorem escapeStr_length_ge (s : Str) : s.length ≤ (escapeStr s).length := by
  induction s with
  | nil => simp [escapeStr]
  | cons c s' ih =>
    have := escapeChar_length_pos c
    simp only [escapeStr, List.length_append, List.length_cons]
    omega

theorem parseStringBody_escape (s rest : Str) (fuel : Nat) (hf : s.length < fuel) :
    parseStringBody fuel (escapeStr s ++ ('"' :: rest)) = some (s, rest) := by
  induction s generalizing fuel with
  | nil =>
    obtain ⟨f, rfl⟩ : ∃ f, fuel = f + 1 := ⟨fuel - 1, by omega⟩
    rfl
  | cons c s' ih =>
    obtain ⟨f, rfl⟩ : ∃ f, fuel = f + 1 := ⟨fuel - 1, by omega⟩
    have hf' : s'.length < f := by
      simp only [List.length_cons] at hf
      omega
    show parseStringBody (f + 1) ((escapeChar c ++ escapeStr s') ++ ('"' :: rest)) = _
    rw [List.append_assoc]
    unfold escapeChar
    by_cases h1 : c = '"'
    · subst h1
      simp [parseStringBody, unescape, ih f hf']
    · rw [if_neg h1]
      by_cases h2 : c = '\\'
      · subst h2
        simp [parseStringBody, unescape, ih f hf']
      · rw [if_neg h2]
        by_cases h3 : c = Char.ofNat 8
        · subst h3
          simp [parseStringBody, unescape, ih f hf']
        · rw [if_neg h3]
          by_cases h4 : c = Char.ofNat 12
          · subst h4
            simp [parseStringBody, unescape, ih f hf']
          · rw [if_neg h4]
            by_cases h5 : c = '\n'
            · subst h5
              simp [parseStringBody, unescape, ih f hf']
            · rw [if_neg h5]
              by_cases h6 : c = Char.ofNat 13
              · subst h6
                simp [parseStringBody, unescape, ih f hf']
              · rw [if_neg h6]
                by_cases h7 : c = '\t'
                · subst h7
                  simp [parseStringBody, unescape, ih f hf']
                · rw [if_neg h7]
                  by_cases h8 : c.toNat < 32
                  · rw [if_pos h8]
                    show parseStringBody (f + 1)
                      ('\\' :: 'u' :: '0' :: '0' :: hexDigit (c.toNat / 16)
                        :: hexDigit (c.toNat % 16) :: (escapeStr s' ++ '"' :: rest)) = _
                    simp only [parseStringBody]
                    rw [if_pos trivial, if_pos trivial]
                    rw [show ('0' : Char) = hexDigit 0 from rfl, hexVal_hexDigit 0 (by omega),
                      hexVal_hexDigit _ (by omega), hexVal_hexDigit _ (by omega), ih f hf']
                    simp only
                    rw [show ((0 * 16 + 0) * 16 + c.toNat / 16) * 16 + c.toNat % 16
                        = c.toNat by omega, Char.ofNat_toNat]
                    rw [if_neg (by decide)]
                  · rw [if_neg h8]
                    simp [parseStringBody, h1, h2, h8, ih f hf']

theorem parseString_print (s rest : Str) :
    parseString (printString s ++ rest) = some (s, rest) := by
  have h : printString s ++ rest = '"' :: (escapeStr s ++ ('"' :: rest)) := by
    simp [printString]
  rw [h]
  show parseStringBody (escapeStr s ++ ('"' :: rest)).length (escapeStr s ++ ('"' :: rest))
      = some (s, rest)
  apply parseStringBody_escape
  have := escapeStr_length_ge s
  simp only [List.length_append, List.length_cons]
  omega

theorem skipWs_nl (x : Str) : skipWs ("\n".toList ++ x) = skipWs x := rfl

theorem skipWs_sp4 (x : Str) : skipWs ("    ".toList ++ x) = skipWs x := rfl

theorem skipWs_nl6 (x : Str) : skipWs ("\n      ".toList ++ x) = skipWs x := rfl

theorem skipWs_nl4 (x : Str) : skipWs ("\n    ".toList ++ x) = skipWs x := rfl

theorem skipWs_sp2 (x : Str) : skipWs ("  ".toList ++ x) = skipWs x := rfl

theorem skipWs_nl2 (x : Str) : skipWs ("\n  ".toList ++ x) = skipWs x := rfl

theorem skipWs_sp (x : Str) : skipWs (" ".toList ++ x) = skipWs x := rfl

theorem skipWs_print_string (k x : Str) : skipWs (printString k ++ x) = printString k ++ x := rfl

theorem skipWs_cons_obrace (x : Str) : skipWs ('{' :: x) = '{' :: x := rfl

theorem skipWs_cons_cbrace (x : Str) : skipWs ('}' :: x) = '}' :: x := rfl

theorem skipWs_cons_obrack (x : Str) : skipWs ('[' :: x) = '[' :: x := rfl

theorem skipWs_cons_cbrack (x : Str) : skipWs (']' :: x) = ']' :: x := rfl

theorem skipWs_cons_colon (x : Str) : skipWs (':' :: x) = ':' :: x := rfl

theorem skipWs_cons_comma (x : Str) : skipWs (',' :: x) = ',' :: x := rfl

theorem dec_turnOpen (x : Str) : "\x7b\n      ".toList ++ x = '{' :: ("\n      ".toList ++ x) := rfl

theorem dec_colonSp (x : Str) : ": ".toList ++ x = ':' :: (" ".toList ++ x) := rfl

theorem dec_commaNl6 (x : Str) : ",\n      ".toList ++ x = ',' :: ("\n      ".toList ++ x) := rfl

theorem dec_turnClose (x : Str) : "\n    \x7d".toList ++ x = "\n    ".toList ++ ('}' :: x) := rfl

theorem expectChar_self (c : Char) (x : Str) : expectChar c (c :: x) = some x := by
  simp [expectChar]

theorem parseTurn_item (t : Turn) (tail : Str) :
    parseTurn ("\n".toList ++ ("    ".toList ++ (printTurn t ++ tail))) = some (t, tail) := by
  obtain ⟨role, content, ts⟩ := t
  cases ts with
  | none =>
    unfold parseTurn printTurn
    simp only [List.append_assoc, List.cons_append, List.nil_append, skipWs_nl, skipWs_sp4, dec_turnOpen, skipWs_cons_obrace,
      expectChar_self, Option.bind_eq_bind, Option.some_bind, skipWs_nl6, skipWs_print_string, parseString_print,
      dec_colonSp, skipWs_cons_colon, skipWs_sp, dec_commaNl6, skipWs_cons_comma,
      dec_turnClose, skipWs_nl4, skipWs_cons_cbrace, ne_eq, not_true, if_false]
  | some tsv =>
    unfold parseTurn printTurn
    simp only [List.append_assoc, List.cons_append, List.nil_append, skipWs_nl, skipWs_sp4, dec_turnOpen, skipWs_cons_obrace,
      expectChar_self, Option.bind_eq_bind, Option.some_bind, skipWs_nl6, skipWs_print_string, parseString_print,
      dec_colonSp, skipWs_cons_colon, skipWs_sp, dec_commaNl6, skipWs_cons_comma,
      dec_turnClose, skipWs_nl4, skipWs_cons_cbrace, ne_eq, not_true, if_false]

theorem dec_commaNl (x : Str) : ",\n".toList ++ x = ',' :: ("\n".toList ++ x) := rfl

theorem dec_arrClose (x : Str) : "\n  ]".toList ++ x = "\n  ".toList ++ (']' :: x) := rfl

theorem printTurnItems_cons_nil (t : Turn) :
    printTurnItems [t] = "    ".toList ++ printTurn t := rfl

theorem printTurnItems_cons_cons (t t2 : Turn) (ts : List Turn) :
    printTurnItems (t :: t2 :: ts)
      = ("    ".toList ++ printTurn t) ++ (",\n".toList ++ printTurnItems (t2 :: ts)) := by
  simp [printTurnItems, joinSep, List.append_assoc]

theorem parseTurnsAux_print (ts : List Turn) (t : Turn) (tail : Str) :
    ∀ fuel, ts.length < fuel →
    parseTurnsAux fuel ("\n".toList ++ (printTurnItems (t :: ts) ++ ("\n  ]".toList ++ tail)))
      = some (t :: ts, tail) := by
  induction ts generalizing t with
  | nil =>
    intro fuel hf
    obtain ⟨f, rfl⟩ : ∃ f, fuel = f + 1 := ⟨fuel - 1, by omega⟩
    simp only [parseTurnsAux, printTurnItems_cons_nil, List.append_assoc]
    rw [parseTurn_item]
    simp only [Option.bind_eq_bind, Option.some_bind, dec_arrClose, skipWs_nl2,
      skipWs_cons_cbrack]
  | cons t2 ts2 ih =>
    intro fuel hf
    obtain ⟨f, rfl⟩ : ∃ f, fuel = f + 1 := ⟨fuel - 1, by omega⟩
    have hf2 : ts2.length < f := by
      simp only [List.length_cons] at hf
      omega
    simp only [parseTurnsAux, printTurnItems_cons_cons, List.append_assoc]
    rw [parseTurn_item]
    simp only [Option.bind_eq_bind, Option.some_bind, dec_commaNl, skipWs_cons_comma]
    rw [ih t2 f hf2]
    simp only [Option.some_bind]

theorem printTurnItems_length (v : List Turn) : v.length ≤ (printTurnItems v).length := by
  induction v with
  | nil => simp [printTurnItems, joinSep]
  | cons t ts ih =>
    cases ts with
    | nil =>
      rw [printTurnItems_cons_nil]
      simp
    | cons t2 ts2 =>
      rw [printTurnItems_cons_cons]
      have h4 : ("    ".toList : Str).length = 4 := rfl
      have h2 : (",\n".toList : Str).length = 2 := rfl
      simp only [List.length_append, List.length_cons] at ih ⊢
      omega

theorem parseTurnList_item (v : List Turn) (tail : Str) :
    parseTurnList (" ".toList ++ (printTurnList v ++ tail)) = some (v, tail) := by
  cases v with
  | nil =>
    simp only [parseTurnList, skipWs_sp,
      show printTurnList [] ++ tail = '[' :: (']' :: tail) from rfl,
      skipWs_cons_obrack, skipWs_cons_cbrack]
  | cons t ts =>
    have hlen := printTurnItems_length (t :: ts)
    have hshape : printTurnList (t :: ts) ++ tail
        = '[' :: ("\n".toList ++ (printTurnItems (t :: ts) ++ ("\n  ]".toList ++ tail))) := by
      simp [printTurnList, List.append_assoc]
    have hR : ∃ R, printTurnItems (t :: ts) ++ ("\n  ]".toList ++ tail)
        = "    ".toList ++ (printTurn t ++ R) := by
      cases ts with
      | nil =>
        refine ⟨"\n  ]".toList ++ tail, ?_⟩
        rw [printTurnItems_cons_nil]
        simp [List.append_assoc]
      | cons t2 ts2 =>
        refine ⟨",\n".toList ++ (printTurnItems (t2 :: ts2) ++ ("\n  ]".toList ++ tail)), ?_⟩
        rw [printTurnItems_cons_cons]
        simp [List.append_assoc]
    obtain ⟨R, hR⟩ := hR
    have hhead : ∃ y, skipWs ("\n".toList ++ (printTurnItems (t :: ts) ++ ("\n  ]".toList ++ tail)))
        = '{' :: y := by
      rw [skipWs_nl, hR, skipWs_sp4]
      exact ⟨_, rfl⟩
    obtain ⟨y, hy⟩ := hhead
    unfold parseTurnList
    rw [skipWs_sp, hshape, skipWs_cons_obrack]
    split
    · next rest2 h2 =>
      have hrest : ("\n".toList ++ (printTurnItems (t :: ts) ++ ("\n  ]".toList ++ tail))) = rest2 := by
        injection h2
      subst hrest
      split
      · next h3 =>
        rw [hy] at h3
        exact absurd h3 (by simp)
      · next =>
        refine parseTurnsAux_print ts t tail _ ?_
        have h1 : ("\n".toList : Str).length = 1 := rfl
        have h4 : ("\n  ]".toList : Str).length = 4 := rfl
        simp only [List.length_append, List.length_cons, h1, h4] at hlen ⊢
        omega
    · next hcontra =>
      exact absurd rfl (hcontra ("\n".toList ++ (printTurnItems (t :: ts) ++ ("\n  ]".toList ++ tail))))

theorem dec_objClose (x : Str) : "\n\x7d".toList ++ x = "\n".toList ++ ('}' :: x) := rfl

theorem printEntryItems_cons_nil (k : Str) (v : List Turn) :
    printEntryItems [(k, v)]
      = "  ".toList ++ (printString k ++ (": ".toList ++ printTurnList v)) := by
  simp [printEntryItems, joinSep, List.append_assoc]

theorem printEntryItems_cons_cons (k : Str) (v : List Turn) (e2 : Str × List Turn)
    (es : HistMap) :
    printEntryItems ((k, v) :: e2 :: es)
      = "  ".toList ++ (printString k ++ (": ".toList ++ (printTurnList v ++
          (",\n".toList ++ printEntryItems (e2 :: es))))) := by
  simp [printEntryItems, joinSep, List.append_assoc]

theorem parseEntriesAux_print (es : HistMap) (e : Str × List Turn) (tail : Str) :
    ∀ fuel, es.length < fuel →
    parseEntriesAux fuel ("\n".toList ++ (printEntryItems (e :: es) ++ ("\n\x7d".toList ++ tail)))
      = some (e :: es, tail) := by
  induction es generalizing e with
  | nil =>
    intro fuel hf
    obtain ⟨f, rfl⟩ : ∃ f, fuel = f + 1 := ⟨fuel - 1, by omega⟩
    obtain ⟨k, v⟩ := e
    simp only [parseEntriesAux, printEntryItems_cons_nil, List.append_assoc, List.cons_append,
      skipWs_nl, skipWs_sp2, skipWs_print_string, parseString_print, Option.bind_eq_bind,
      Option.some_bind, dec_colonSp, skipWs_cons_colon, expectChar_self, parseTurnList_item,
      dec_objClose, skipWs_cons_cbrace]
  | cons e2 es2 ih =>
    intro fuel hf
    obtain ⟨f, rfl⟩ : ∃ f, fuel = f + 1 := ⟨fuel - 1, by omega⟩
    have hf2 : es2.length < f := by
      simp only [List.length_cons] at hf
      omega
    obtain ⟨k, v⟩ := e
    simp only [parseEntriesAux, printEntryItems_cons_cons, List.append_assoc, List.cons_append,
      skipWs_nl, skipWs_sp2, skipWs_print_string, parseString_print, Option.bind_eq_bind,
      Option.some_bind, dec_colonSp, skipWs_cons_colon, expectChar_self, parseTurnList_item,
      dec_commaNl, skipWs_cons_comma]
    rw [ih e2 f hf2]
    simp only [Option.some_bind]

theorem printEntryItems_length (m : HistMap) : m.length ≤ (printEntryItems m).length := by
  induction m with
  | nil => simp [printEntryItems, joinSep]
  | cons e es ih =>
    obtain ⟨k, v⟩ := e
    cases es with
    | nil =>
      rw [printEntryItems_cons_nil]
      simp
    | cons e2 es2 =>
      rw [printEntryItems_cons_cons]
      have h2 : ("  ".toList : Str).length = 2 := rfl
      have hc : (",\n".toList : Str).length = 2 := rfl
      have hcl : (": ".toList : Str).length = 2 := rfl
      simp only [List.length_append, List.length_cons, h2, hc, hcl] at ih ⊢
      omega

theorem jsonParseHistory_print (m : HistMap) : jsonParseHistory (printHistory m) = some m := by
  cases m with
  | nil => rfl
  | cons e es =>
    obtain ⟨k, v⟩ := e
    have hlen := printEntryItems_length ((k, v) :: es)
    have hPH : printHistory ((k, v) :: es)
        = '{' :: ("\n".toList ++ (printEntryItems ((k, v) :: es) ++ ("\n\x7d".toList ++ []))) := by
      simp [printHistory, List.append_assoc]
    have hR : ∃ R, printEntryItems ((k, v) :: es) ++ ("\n\x7d".toList ++ [])
        = "  ".toList ++ (printString k ++ R) := by
      cases es with
      | nil =>
        refine ⟨": ".toList ++ (printTurnList v ++ ("\n\x7d".toList ++ [])), ?_⟩
        rw [printEntryItems_cons_nil]
        simp [List.append_assoc]
      | cons e2 es2 =>
        refine ⟨": ".toList ++ (printTurnList v ++ (",\n".toList ++ (printEntryItems (e2 :: es2)
          ++ ("\n\x7d".toList ++ [])))), ?_⟩
        rw [printEntryItems_cons_cons]
        simp [List.append_assoc]
    obtain ⟨R, hR⟩ := hR
    have hhead : ∃ y, skipWs ("\n".toList ++ (printEntryItems ((k, v) :: es)
        ++ ("\n\x7d".toList ++ []))) = '"' :: y := by
      rw [skipWs_nl, hR, skipWs_sp2]
      exact ⟨_, rfl⟩
    obtain ⟨y, hy⟩ := hhead
    unfold jsonParseHistory parseHistoryObject
    rw [hPH, skipWs_cons_obrace]
    split
    · next rest2 h2 =>
      have hrest : ("\n".toList ++ (printEntryItems ((k, v) :: es) ++ ("\n\x7d".toList ++ [])))
          = rest2 := by
        injection h2
      subst hrest
      split
      · next h3 =>
        rw [hy] at h3
        exact absurd h3 (by simp)
      · next =>
        rw [parseEntriesAux_print es (k, v) [] _ (by
          have h1 : ("\n".toList : Str).length = 1 := rfl
          have h4 : ("\n\x7d".toList : Str).length = 2 := rfl
          simp only [List.length_append, List.length_cons, List.length_nil, h1, h4]
            at hlen ⊢
          omega)]
        rfl
    · next hcontra =>
      exact absurd rfl
        (hcontra ("\n".toList ++ (printEntryItems ((k, v) :: es) ++ ("\n\x7d".toList ++ []))))

/-- **C5.** Serializing any in-memory history mapping with `saveHistory`
and loading the file back with `loadHistory` reproduces the identical
mapping from conversation id to turn sequence, with the order of each
conversation's turns (and even of the entries) preserved. -/
theorem claim_C5_roundtrip (m : HistMap) (file : Option Str) :
    loadHistory (saveHistory m file) = m := by
  unfold saveHistory loadHistory
  by_cases h : m.length = 0 ∧ file = none
  · rw [if_pos h]
    obtain ⟨hm, hf⟩ := h
    subst hf
    exact (List.length_eq_zero.mp hm).symm
  · rw [if_neg h]
    simp only [jsonParseHistory_print]

end DiscordChat
